import Mathlib

/-!
Shallow embedding of the caching layer of the isucon social-posting
application (Go source: the single main file of the repository).

The three domain caches (`getUsers` / `banUserOnCache`, `getIndexPosts`,
`getComments` / `appendComment`) and the aggregation function `makePosts`
are translated function-by-function from the Go source.  The external
collaborators are modelled explicitly:

* the memcached backend is a key/value association list; its key strings
  `"user:<id>"`, `"comments:<postId>"`, `"indexPosts"` are represented by
  the inductive `CacheKey` (the rendering into the disjoint string
  namespaces is injective, so this is an exact representation);
* the relational store is a record of tables; queries are translated into
  list operations (`WHERE`/`ORDER BY`/`LIMIT` become filter/stable
  sort/take, `INSERT` appends a row with the auto-increment id);
* fallible external calls (memcached transport, `db.Select`, `db.Exec`,
  `LastInsertId`, `json.Marshal`) are driven by an environment `Env` of
  outcome flags; `json.Unmarshal` failure is determined by the shape of
  the stored cache value (`CacheValue.corrupt` or a wrong constructor);
* Go `panic` is the outcome `GoRes.panicked`, a returned non-nil `error`
  is `GoRes.err`; each operation also returns the new world state and the
  number of store round-trips it issued.
-/

namespace Isu

/-- Go struct `User` (`id`, `account_name`, `passhash`, `authority`,
`del_flg`, `created_at`); the two flag columns only ever hold 0/1 and
`time.Time` is modelled as a `Nat` timestamp. -/
structure User where
  id : Nat
  accountName : String
  passhash : String
  authority : Nat
  delFlg : Nat
  createdAt : Nat
deriving DecidableEq, Repr

/-- The zero `User` value (Go's zero value for the struct). -/
def zeroUser : User :=
  { id := 0, accountName := "", passhash := "", authority := 0, delFlg := 0, createdAt := 0 }

/-- Go struct `Comment` (`id`, `post_id`, `user_id`, `comment`,
`created_at`, plus the in-memory `User` snapshot field, which is not a
database column). -/
structure Comment where
  id : Nat
  postId : Nat
  userId : Nat
  comment : String
  createdAt : Nat
  user : User
deriving DecidableEq, Repr

/-- Go struct `Post` (`id`, `user_id`, `body`, `mime`, `created_at`, plus
the derived in-memory fields `CommentCount`, `Comments`, `User`,
`CSRFToken`; the `imgdata` blob column is irrelevant to the cache layer
and omitted). -/
structure Post where
  id : Nat
  userId : Nat
  body : String
  mime : String
  createdAt : Nat
  commentCount : Nat
  comments : List Comment
  user : User
  csrfToken : String
deriving DecidableEq, Repr

/-- The zero `Post` value. -/
def zeroPost : Post :=
  { id := 0, userId := 0, body := "", mime := "", createdAt := 0,
    commentCount := 0, comments := [], user := zeroUser, csrfToken := "" }

/-- The memcached key namespace used by the source:
`getUserCacheKey uid = "user:" ++ toString uid`,
`getCommentsCacheKey pid = "comments:" ++ toString pid`,
`getIndexPostsCacheKey = "indexPosts"`.  The three string families are
disjoint and the numeric rendering is injective, so the inductive type is
an exact model of the key strings. -/
inductive CacheKey where
  | userKey : Nat → CacheKey
  | commentsKey : Nat → CacheKey
  | indexPostsKey : CacheKey
deriving DecidableEq, Repr

/-- A value stored in memcached: the JSON serialization of a `User`, a
`[]Comment`, or a `[]Post`; `corrupt` models a payload on which
`json.Unmarshal` into the expected type fails. -/
inductive CacheValue where
  | userVal : User → CacheValue
  | commentsVal : List Comment → CacheValue
  | postsVal : List Post → CacheValue
  | corrupt : CacheValue
deriving DecidableEq, Repr

/-- Association-list lookup (first binding wins; `set` keeps keys unique). -/
def assocGet {α β : Type} [DecidableEq α] : List (α × β) → α → Option β
  | [], _ => none
  | (k, v) :: rest, k2 => if k = k2 then some v else assocGet rest k2

/-- Association-list update: replace the binding for `k` if present,
otherwise add it.  Models both memcached `set` and Go map assignment. -/
def assocSet {α β : Type} [DecidableEq α] : List (α × β) → α → β → List (α × β)
  | [], k, v => [(k, v)]
  | (k2, v2) :: rest, k, v =>
    if k2 = k then (k, v) :: rest else (k2, v2) :: assocSet rest k v

/-- Association-list deletion of a key: models memcached `delete`. -/
def assocDelete {α β : Type} [DecidableEq α] : List (α × β) → α → List (α × β)
  | [], _ => []
  | (k2, v2) :: rest, k =>
    if k2 = k then assocDelete rest k else (k2, v2) :: assocDelete rest k

/-- The memcached contents. -/
abbrev Cache : Type := List (CacheKey × CacheValue)

/-- The relational store: the `users`, `posts` and `comments` tables plus
the auto-increment counter for `comments.id`. -/
structure Store where
  users : List User
  posts : List Post
  comments : List Comment
  nextCommentId : Nat
deriving DecidableEq, Repr

/-- Combined mutable state: the store and the memcached contents. -/
structure World where
  store : Store
  cache : Cache
deriving DecidableEq, Repr

/-- Outcome flags for the fallible external calls an operation makes.
`true` means that call fails when (and each time) the operation performs
it. -/
structure Env where
  multiGetErr : Bool
  cacheGetErr : Bool
  userSelectErr : Bool
  commentSelectErr : Bool
  postSelectErr : Bool
  insertErr : Bool
  lastInsertIdErr : Bool
  marshalErr : Bool
deriving DecidableEq, Repr

/-- Normal operation: every external call succeeds. -/
def envOK : Env :=
  { multiGetErr := false, cacheGetErr := false, userSelectErr := false,
    commentSelectErr := false, postSelectErr := false, insertErr := false,
    lastInsertIdErr := false, marshalErr := false }

/-- The outcome of one Go function call: normal return value, returned
non-nil `error`, or `panic`. -/
inductive GoRes (α : Type) where
  | ok : α → GoRes α
  | err : GoRes α
  | panicked : GoRes α
deriving DecidableEq, Repr

/-- Result of running one operation: its outcome, the world afterwards,
and the number of store round-trips (queries and inserts) it issued. -/
structure StepResult (α : Type) where
  res : GoRes α
  world : World
  queries : Nat
deriving DecidableEq, Repr

/-! ## UserCache (`getUsers`, `banUserOnCache`) -/

/-- `getUserCacheKey` from the source. -/
def getUserCacheKey (uid : Nat) : CacheKey := CacheKey.userKey uid

/-- The result map of `getUsers` (Go `map[int]User`); represented as an
association list with `assocSet` assignment, observed only through
`assocGet`. -/
abbrev UserMap : Type := List (Nat × User)

/-- The loop of `getUsers` over `uids`: for each requested id present in
the multi-get result, unmarshal (a non-`User` payload panics) and assign
into the map; collect the others into `missUids` (appended in order). -/
def collectHits (items : List (CacheKey × CacheValue)) :
    List Nat → UserMap → List Nat → GoRes (UserMap × List Nat)
  | [], users, missUids => .ok (users, missUids)
  | uid :: rest, users, missUids =>
    match assocGet items (getUserCacheKey uid) with
    | some (CacheValue.userVal u) =>
        collectHits items rest (assocSet users uid u) missUids
    | some _ => .panicked
    | none => collectHits items rest users (missUids ++ [uid])

/-- The backfill loop of `getUsers` over the rows fetched from the store:
assign `users[u.ID] = u`, marshal (failure panics), `set` the cache
entry. -/
def cacheUsers (env : Env) :
    Cache → UserMap → List User → GoRes (UserMap × Cache)
  | cache, users, [] => .ok (users, cache)
  | cache, users, u :: rest =>
    let users2 := assocSet users u.id u
    if env.marshalErr then .panicked
    else cacheUsers env
      (assocSet cache (getUserCacheKey u.id) (CacheValue.userVal u)) users2 rest

/-- `getUsers` from the source.  Builds the keys, issues one multi-get
(on transport error the item map is unusable, i.e. empty — every
requested id becomes a miss; the error itself is only logged).  Cache
hits are unmarshalled into the result map; misses are fetched from the
store in one batched `WHERE id IN (...)` query.  The error of that
`db.Select` is assigned but never checked: on store failure the row slice
stays empty and the function still returns `(users, nil)`.  Fetched rows
are added to the map and written back to the cache individually. -/
def getUsers (env : Env) (w : World) (uids : List Nat) : StepResult UserMap :=
  let keys := uids.map getUserCacheKey
  let items : List (CacheKey × CacheValue) :=
    if env.multiGetErr then []
    else keys.filterMap fun k => (assocGet w.cache k).map fun v => (k, v)
  match collectHits items uids [] [] with
  | .panicked => ⟨.panicked, w, 0⟩
  | .err => ⟨.err, w, 0⟩
  | .ok (users, missUids) =>
    if missUids.isEmpty then ⟨.ok users, w, 0⟩
    else if env.userSelectErr then
      ⟨.ok users, w, 1⟩
    else
      let missUsers := w.store.users.filter fun u => missUids.contains u.id
      match cacheUsers env w.cache users missUsers with
      | .ok (users2, cache2) => ⟨.ok users2, { w with cache := cache2 }, 1⟩
      | _ => ⟨.panicked, w, 1⟩

/-- `banUserOnCache` from the source: `get` the cached snapshot (on a
miss or transport error, return immediately); unmarshal (failure
panics); set `DelFlg = 1`; marshal (failure panics); `set` the entry
back.  No store access at all. -/
def banUserOnCache (env : Env) (w : World) (userID : Nat) : StepResult Unit :=
  let key := getUserCacheKey userID
  match (if env.cacheGetErr then none else assocGet w.cache key) with
  | none => ⟨.ok (), w, 0⟩
  | some (CacheValue.userVal u) =>
    if env.marshalErr then ⟨.panicked, w, 0⟩
    else
      ⟨.ok (), { w with
        cache := assocSet w.cache key (CacheValue.userVal { u with delFlg := 1 }) }, 0⟩
  | some _ => ⟨.panicked, w, 0⟩

/-! ## Store queries

SQL `ORDER BY` is modelled as a stable insertion sort (ties keep table
order, matching rows returned in primary-key order by the store),
`WHERE` as `filter`, `LIMIT` as `take`, `INSERT` as appending a row
carrying the auto-increment id. -/

/-- Insert `x` into an already sorted list, after every element `y` with
`le y x` (stable: equal keys keep their original relative order). -/
def insertSorted {α : Type} (le : α → α → Bool) (x : α) : List α → List α
  | [] => [x]
  | y :: rest => if le y x then y :: insertSorted le x rest else x :: y :: rest

/-- Stable insertion sort by the boolean relation `le`. -/
def sortBy {α : Type} (le : α → α → Bool) : List α → List α
  | [] => []
  | x :: rest => insertSorted le x (sortBy le rest)

/-- Ascending `created_at` order on comments. -/
def commentLe (a b : Comment) : Bool := a.createdAt ≤ b.createdAt

/-- Descending `created_at` order on posts. -/
def postGe (a b : Post) : Bool := b.createdAt ≤ a.createdAt

/-- `SELECT * FROM comments WHERE post_id = ? ORDER BY created_at`. -/
def selectCommentsByPost (st : Store) (pid : Nat) : List Comment :=
  sortBy commentLe (st.comments.filter fun c => c.postId = pid)

/-- `postsPerPage` from the source. -/
def postsPerPage : Nat := 20

/-- The five selected columns of a `posts` row (the derived in-memory
fields of `Post` come back as zero values). -/
def postRowView (p : Post) : Post :=
  { zeroPost with
    id := p.id, userId := p.userId, body := p.body,
    mime := p.mime, createdAt := p.createdAt }

/-- ``SELECT posts.id, user_id, body, mime, posts.created_at FROM posts
WHERE user_id IN (SELECT id FROM users WHERE del_flg = 0)
ORDER BY created_at DESC LIMIT postsPerPage``. -/
def selectIndexPosts (st : Store) : List Post :=
  ((sortBy postGe ((st.posts.filter fun p =>
      (st.users.filter fun u => u.delFlg = 0).any fun u => u.id = p.userId).map
        postRowView)).take postsPerPage)

/-! ## PostIndexCache (`getIndexPosts`, index invalidation) -/

/-- `getIndexPostsCacheKey` from the source. -/
def getIndexPostsCacheKey : CacheKey := CacheKey.indexPostsKey

/-- `getIndexPosts` from the source: `get` the single key; on a hit
unmarshal (failure panics) and return.  On a miss (or transport error)
run the store query; a store error is returned to the caller.  Marshal
the list and, only if marshalling succeeded, `set` it back; return the
list with nil error either way. -/
def getIndexPosts (env : Env) (w : World) : StepResult (List Post) :=
  let key := getIndexPostsCacheKey
  match (if env.cacheGetErr then none else assocGet w.cache key) with
  | some (CacheValue.postsVal posts) => ⟨.ok posts, w, 0⟩
  | some _ => ⟨.panicked, w, 0⟩
  | none =>
    if env.postSelectErr then ⟨.err, w, 1⟩
    else
      let posts := selectIndexPosts w.store
      if env.marshalErr then ⟨.ok posts, w, 1⟩
      else ⟨.ok posts,
        { w with cache := assocSet w.cache key (CacheValue.postsVal posts) }, 1⟩

/-- `memcacheClient.Delete(getIndexPostsCacheKey())`, as issued by the
post-creation and admin-ban handlers (the spec's `invalidate()`). -/
def invalidateIndexPosts (w : World) : World :=
  { w with cache := assocDelete w.cache getIndexPostsCacheKey }

/-! ## CommentCache (`getComments`, `appendComment`) -/

/-- `getCommentsCacheKey` from the source. -/
def getCommentsCacheKey (pid : Nat) : CacheKey := CacheKey.commentsKey pid

/-- `getComments` from the source: `get` the per-post key; on a hit
unmarshal (failure panics) and return.  On a miss (or transport error)
run the store query; a store error is returned to the caller.  Marshal
and, only if marshalling succeeded, `set` the list back; return it. -/
def getComments (env : Env) (w : World) (pid : Nat) : StepResult (List Comment) :=
  let key := getCommentsCacheKey pid
  match (if env.cacheGetErr then none else assocGet w.cache key) with
  | some (CacheValue.commentsVal comments) => ⟨.ok comments, w, 0⟩
  | some _ => ⟨.panicked, w, 0⟩
  | none =>
    if env.commentSelectErr then ⟨.err, w, 1⟩
    else
      let comments := selectCommentsByPost w.store pid
      if env.marshalErr then ⟨.ok comments, w, 1⟩
      else ⟨.ok comments,
        { w with
          cache := assocSet w.cache (getCommentsCacheKey pid)
            (CacheValue.commentsVal comments) }, 1⟩

/-- The comment row as the store persists it: the insert names only
`post_id`, `user_id` and `comment`; the id is the auto-increment value,
`created_at` is the insertion-time default, and the in-memory `User`
snapshot is not a column (it reads back as the zero value). -/
def insertedComment (postID : Nat) (user : User) (comment : String)
    (now : Nat) (newId : Nat) : Comment :=
  { id := newId, postId := postID, userId := user.id, comment := comment,
    createdAt := now, user := zeroUser }

/-- `appendComment` from the source: build the in-memory comment (with
the author snapshot and `time.Now()`), `INSERT` it into the store first
(an insert error is returned with nothing else done), then `get` the
cached list.  On a cache miss (or transport error) return nil — the
cache is left untouched and no rebuild happens.  On a hit: unmarshal
(failure returns the error), read `LastInsertId` (failure returns the
error), append the comment with its store id to the list, marshal
(failure returns the error) and overwrite the entry. -/
def appendComment (env : Env) (w : World) (postID : Nat) (user : User)
    (comment : String) (now : Nat) : StepResult Unit :=
  let c : Comment :=
    { id := 0, postId := postID, userId := user.id,
      comment := comment, createdAt := now, user := user }
  let key := getCommentsCacheKey postID
  if env.insertErr then ⟨.err, w, 1⟩
  else
    let newId := w.store.nextCommentId
    let st2 : Store :=
      { w.store with
        comments := w.store.comments ++ [insertedComment postID user comment now newId],
        nextCommentId := newId + 1 }
    let w2 : World := { w with store := st2 }
    match (if env.cacheGetErr then none else assocGet w2.cache key) with
    | none => ⟨.ok (), w2, 1⟩
    | some (CacheValue.commentsVal comments) =>
      if env.lastInsertIdErr then ⟨.err, w2, 1⟩
      else if env.marshalErr then ⟨.err, w2, 1⟩
      else ⟨.ok (),
        { w2 with
          cache := assocSet w2.cache key
            (CacheValue.commentsVal (comments ++ [{ c with id := newId }])) }, 1⟩
    | some _ => ⟨.err, w2, 1⟩

/-! ## Aggregation Service (`makePosts`) -/

/-- The loop body of `makePosts`, with the accumulated page and query
count made explicit.  For each candidate post: fetch its comments
(errors propagate), truncate to the first 3 unless `allComments`, batch
the author ids of this single post (post author first, then comment
authors in order), resolve them via `getUsers` (errors propagate),
attach user snapshots (absent ids give the zero `User`), keep the post
iff its author's `del_flg` is 0, and stop as soon as `postsPerPage`
posts survive. -/
def makePostsLoop (env : Env) (csrf : String) (allComments : Bool) :
    World → List Post → List Post → Nat → StepResult (List Post)
  | w, [], posts, q => ⟨.ok posts, w, q⟩
  | w, p :: rest, posts, q =>
    let r1 := getComments env w p.id
    match r1.res with
    | .err => ⟨.err, r1.world, q + r1.queries⟩
    | .panicked => ⟨.panicked, r1.world, q + r1.queries⟩
    | .ok comments =>
      let commentCount := comments.length
      let comments2 :=
        if !allComments && decide (commentCount > 3) then comments.take 3 else comments
      let uids := p.userId :: comments2.map Comment.userId
      let r2 := getUsers env r1.world uids
      match r2.res with
      | .err => ⟨.err, r2.world, q + r1.queries + r2.queries⟩
      | .panicked => ⟨.panicked, r2.world, q + r1.queries + r2.queries⟩
      | .ok users =>
        let comments3 := comments2.map fun c =>
          { c with user := (assocGet users c.userId).getD zeroUser }
        let p2 :=
          { p with
            commentCount := commentCount, comments := comments3,
            user := (assocGet users p.userId).getD zeroUser, csrfToken := csrf }
        let posts2 := if p2.user.delFlg = 0 then posts ++ [p2] else posts
        if posts2.length ≥ postsPerPage then
          ⟨.ok posts2, r2.world, q + r1.queries + r2.queries⟩
        else
          makePostsLoop env csrf allComments r2.world rest posts2
            (q + r1.queries + r2.queries)

/-- `makePosts` from the source. -/
def makePosts (env : Env) (w : World) (results : List Post) (csrf : String)
    (allComments : Bool) : StepResult (List Post) :=
  makePostsLoop env csrf allComments w results [] 0

/-! ## Association-list lemmas -/

theorem assocGet_assocSet_self {α β : Type} [DecidableEq α]
    (m : List (α × β)) (k : α) (v : β) : assocGet (assocSet m k v) k = some v := by
  induction m with
  | nil => simp [assocGet, assocSet]
  | cons p rest ih =>
    obtain ⟨k2, v2⟩ := p
    by_cases h : k2 = k
    · simp [assocGet, assocSet, h]
    · simp [assocGet, assocSet, h, ih]

theorem assocGet_assocSet_ne {α β : Type} [DecidableEq α]
    (m : List (α × β)) (k k2 : α) (v : β) (h : k ≠ k2) :
    assocGet (assocSet m k v) k2 = assocGet m k2 := by
  induction m with
  | nil => simp [assocGet, assocSet, h]
  | cons p rest ih =>
    obtain ⟨k3, v3⟩ := p
    by_cases h3 : k3 = k
    · subst h3
      simp [assocGet, assocSet, h]
    · simp only [assocSet, if_neg h3]
      by_cases h4 : k3 = k2
      · simp [assocGet, h4]
      · simp [assocGet, h4, ih]

theorem assocGet_assocDelete_self {α β : Type} [DecidableEq α]
    (m : List (α × β)) (k : α) : assocGet (assocDelete m k) k = none := by
  induction m with
  | nil => simp [assocGet, assocDelete]
  | cons p rest ih =>
    obtain ⟨k2, v2⟩ := p
    by_cases h : k2 = k
    · simp [assocDelete, h, ih]
    · simp [assocDelete, assocGet, h, ih]

theorem assocGet_assocDelete_ne {α β : Type} [DecidableEq α]
    (m : List (α × β)) (k k2 : α) (h : k ≠ k2) :
    assocGet (assocDelete m k) k2 = assocGet m k2 := by
  induction m with
  | nil => simp [assocDelete]
  | cons p rest ih =>
    obtain ⟨k3, v3⟩ := p
    by_cases h3 : k3 = k
    · subst h3
      have h5 : k3 ≠ k2 := h
      simp [assocDelete, assocGet, h5, ih]
    · simp only [assocDelete, if_neg h3]
      by_cases h4 : k3 = k2
      · simp [assocGet, h4]
      · simp [assocGet, h4, ih]

theorem assocGet_mem {α β : Type} [DecidableEq α]
    {m : List (α × β)} {k : α} {v : β} (h : assocGet m k = some v) : (k, v) ∈ m := by
  induction m with
  | nil => simp [assocGet] at h
  | cons p rest ih =>
    obtain ⟨k2, v2⟩ := p
    by_cases h2 : k2 = k
    · subst h2
      simp [assocGet] at h
      simp [h]
    · simp [assocGet, h2] at h
      simp [ih h]

/-! ## The multi-get item map

`GetMulti` returns exactly the present keys among the requested ones;
`getUsers` then looks the requested keys up in that map.  The two lemmas
below identify that composite with a direct cache lookup. -/

theorem items_get_none {cache : Cache} {keys : List CacheKey} {k : CacheKey}
    (h : assocGet cache k = none) :
    assocGet (keys.filterMap fun k2 => (assocGet cache k2).map fun v => (k2, v)) k = none := by
  induction keys with
  | nil => simp [assocGet]
  | cons k2 rest ih =>
    cases h2 : assocGet cache k2 with
    | none => simpa [List.filterMap_cons, h2] using ih
    | some v =>
      by_cases h3 : k2 = k
      · subst h3
        rw [h2] at h
        exact absurd h (by simp)
      · simpa [List.filterMap_cons, h2, assocGet, h3] using ih

theorem items_get_of_mem {cache : Cache} {keys : List CacheKey} {k : CacheKey}
    (hk : k ∈ keys) :
    assocGet (keys.filterMap fun k2 => (assocGet cache k2).map fun v => (k2, v)) k =
      assocGet cache k := by
  induction keys with
  | nil => simp at hk
  | cons k2 rest ih =>
    by_cases h3 : k2 = k
    · subst h3
      cases h2 : assocGet cache k2 with
      | none => simpa [List.filterMap_cons, h2] using items_get_none h2
      | some v => simp [List.filterMap_cons, h2, assocGet]
    · have hk2 : k ∈ rest := by
        rcases List.mem_cons.mp hk with h | h
        · exact absurd h.symm h3
        · exact h
      cases h2 : assocGet cache k2 with
      | none => simpa [List.filterMap_cons, h2] using ih hk2
      | some v => simpa [List.filterMap_cons, h2, assocGet, h3] using ih hk2

/-! ## Lookup abstractions for `getUsers` -/

/-- The row a sequence of Go map assignments `users[u.ID] = u` over `l`
leaves at key `x`: the last row of `l` whose id is `x`. -/
def lastIdLookup (l : List User) (x : Nat) : Option User :=
  match l with
  | [] => none
  | u :: rest =>
    match lastIdLookup rest x with
    | some v => some v
    | none => if u.id = x then some u else none

theorem lastIdLookup_isSome (l : List User) (x : Nat) :
    (lastIdLookup l x).isSome = true ↔ x ∈ l.map User.id := by
  induction l with
  | nil => simp [lastIdLookup]
  | cons u rest ih =>
    cases h2 : lastIdLookup rest x with
    | some v =>
      simp only [lastIdLookup, h2]
      have : x ∈ rest.map User.id := ih.mp (by simp [h2])
      simp [this]
    | none =>
      have hnm : ¬ x ∈ rest.map User.id := by
        intro hm
        have h4 := ih.mpr hm
        rw [h2] at h4
        simp at h4
      by_cases h3 : u.id = x
      · simp [lastIdLookup, h2, h3]
      · have hx : ¬ x ∈ (u :: rest).map User.id := by
          simp only [List.map_cons, List.mem_cons]
          rintro (h4 | h4)
          · exact h3 h4.symm
          · exact hnm h4
        have h5 : lastIdLookup (u :: rest) x = none := by
          simp [lastIdLookup, h2, h3]
        rw [h5]
        simp only [Option.isSome_none, Bool.false_eq_true, false_iff]
        exact hx

theorem lastIdLookup_mem (l : List User) (x : Nat) (u : User) :
    lastIdLookup l x = some u → u ∈ l ∧ u.id = x := by
  induction l with
  | nil => intro h; simp [lastIdLookup] at h
  | cons v rest ih =>
    intro h
    cases h2 : lastIdLookup rest x with
    | some z =>
      simp only [lastIdLookup, h2] at h
      obtain rfl : z = u := by simpa using h
      obtain ⟨hm, hi⟩ := ih h2
      exact ⟨List.mem_cons_of_mem v hm, hi⟩
    | none =>
      simp only [lastIdLookup, h2] at h
      by_cases h3 : v.id = x
      · rw [if_pos h3] at h
        obtain rfl : v = u := by simpa using h
        exact ⟨List.mem_cons_self v rest, h3⟩
      · rw [if_neg h3] at h
        cases h

theorem lastIdLookup_filter (l : List User) (p : Nat → Bool) (x : Nat) :
    lastIdLookup (l.filter fun u => p u.id) x =
      if p x then lastIdLookup l x else none := by
  induction l with
  | nil => simp [lastIdLookup]
  | cons u rest ih =>
    by_cases hp : p u.id = true
    · simp only [List.filter_cons, hp, if_true]
      simp only [lastIdLookup, ih]
      by_cases hpx : p x = true
      · simp only [hpx, if_true]
      · have h3 : u.id ≠ x := fun h4 => hpx (h4 ▸ hp)
        simp [hpx, h3]
    · simp only [List.filter_cons, hp]
      simp only [Bool.false_eq_true, if_false, ih]
      by_cases hpx : p x = true
      · have h3 : u.id ≠ x := fun h4 => hp (h4 ▸ hpx)
        simp only [hpx, if_true, lastIdLookup, h3]
        cases lastIdLookup rest x <;> simp [h3]
      · simp [hpx]

/-- The `User` a multi-get item map yields at a requested id, when the
payload has the right shape. -/
def itemsUser (items : List (CacheKey × CacheValue)) (x : Nat) : Option User :=
  match assocGet items (getUserCacheKey x) with
  | some (CacheValue.userVal u) => some u
  | _ => none

/-- The `User` the cache yields at an id, when the payload has the right
shape. -/
def cachedUser (cache : Cache) (x : Nat) : Option User :=
  match assocGet cache (getUserCacheKey x) with
  | some (CacheValue.userVal u) => some u
  | _ => none

/-- What `getUsers` resolves a single requested id to: the cached
snapshot if the key is present, otherwise the store row (the last one
with that id, matching overwrite order). -/
def userLookup (w : World) (x : Nat) : Option User :=
  match cachedUser w.cache x with
  | some u => some u
  | none => lastIdLookup w.store.users x

/-- Well-formedness of the user cache over a set of ids: every present
entry deserializes as a `User` (otherwise the source panics on
unmarshal).  Holds for every cache state the program itself writes. -/
def usersWFFor (cache : Cache) (uids : List Nat) : Bool :=
  uids.all fun x =>
    match assocGet cache (getUserCacheKey x) with
    | some (CacheValue.userVal _) => true
    | some _ => false
    | none => true

theorem usersWFFor_shape {cache : Cache} {uids : List Nat}
    (hwf : usersWFFor cache uids = true) {x : Nat} (hx : x ∈ uids) {v : CacheValue}
    (hv : assocGet cache (getUserCacheKey x) = some v) :
    ∃ u, v = CacheValue.userVal u := by
  have hx2 := List.all_eq_true.mp hwf x hx
  rw [hv] at hx2
  cases v with
  | userVal u => exact ⟨u, rfl⟩
  | commentsVal l => simp at hx2
  | postsVal l => simp at hx2
  | corrupt => simp at hx2

/-! ## Characterization of the two loops of `getUsers` -/

theorem collectHits_spec (items : List (CacheKey × CacheValue)) (uids : List Nat)
    (users : UserMap) (missUids : List Nat)
    (hwf : ∀ x ∈ uids, ∀ v, assocGet items (getUserCacheKey x) = some v →
      ∃ u, v = CacheValue.userVal u) :
    ∃ users2,
      collectHits items uids users missUids =
        .ok (users2, missUids ++ uids.filter fun x => (itemsUser items x).isNone) ∧
      ∀ x, assocGet users2 x =
        if x ∈ uids ∧ (itemsUser items x).isSome = true then itemsUser items x
        else assocGet users x := by
  induction uids generalizing users missUids with
  | nil =>
    refine ⟨users, by simp [collectHits], fun x => ?_⟩
    simp
  | cons uid rest ih =>
    have hwfrest : ∀ x ∈ rest, ∀ v, assocGet items (getUserCacheKey x) = some v →
        ∃ u, v = CacheValue.userVal u :=
      fun x hx => hwf x (List.mem_cons_of_mem uid hx)
    cases hg : assocGet items (getUserCacheKey uid) with
    | none =>
      have hiu : itemsUser items uid = none := by simp [itemsUser, hg]
      obtain ⟨users2, heq, hchar⟩ := ih users (missUids ++ [uid]) hwfrest
      refine ⟨users2, ?_, fun x => ?_⟩
      · have hred : collectHits items (uid :: rest) users missUids =
            collectHits items rest users (missUids ++ [uid]) := by
          rw [collectHits, hg]
        have hfil : (missUids ++ [uid]) ++ (rest.filter fun x => (itemsUser items x).isNone) =
            missUids ++ ((uid :: rest).filter fun x => (itemsUser items x).isNone) := by
          rw [List.filter_cons]
          simp [hiu]
        rw [hred, heq, hfil]
      · rw [hchar x]
        by_cases hx : x = uid
        · subst hx
          simp [hiu]
        · by_cases hr : x ∈ rest
          · simp [hr, hx]
          · simp [hr, hx]
    | some v =>
      obtain ⟨u, rfl⟩ := hwf uid (List.mem_cons_self uid rest) v hg
      have hiu : itemsUser items uid = some u := by simp [itemsUser, hg]
      obtain ⟨users2, heq, hchar⟩ := ih (assocSet users uid u) missUids hwfrest
      refine ⟨users2, ?_, fun x => ?_⟩
      · have hred : collectHits items (uid :: rest) users missUids =
            collectHits items rest (assocSet users uid u) missUids := by
          rw [collectHits, hg]
        have hfil : missUids ++ (rest.filter fun x => (itemsUser items x).isNone) =
            missUids ++ ((uid :: rest).filter fun x => (itemsUser items x).isNone) := by
          rw [List.filter_cons]
          simp [hiu]
        rw [hred, heq, hfil]
      · rw [hchar x]
        by_cases hx : x = uid
        · subst hx
          by_cases hr : x ∈ rest
          · simp [hr, hiu]
          · simp [hr, hiu, assocGet_assocSet_self]
        · have hset := assocGet_assocSet_ne users uid x u (fun h => hx h.symm)
          by_cases hr : x ∈ rest
          · simp [hr, hx, hset]
          · simp [hr, hx, hset]

theorem cacheUsers_spec (env : Env) (hm : env.marshalErr = false)
    (rows : List User) (cache : Cache) (users : UserMap) :
    ∃ users2 cache2,
      cacheUsers env cache users rows = .ok (users2, cache2) ∧
      (∀ x, assocGet users2 x =
        match lastIdLookup rows x with
        | some u => some u
        | none => assocGet users x) ∧
      (∀ x, assocGet cache2 (getUserCacheKey x) =
        match lastIdLookup rows x with
        | some u => some (CacheValue.userVal u)
        | none => assocGet cache (getUserCacheKey x)) ∧
      (∀ k, (∀ x, k ≠ getUserCacheKey x) → assocGet cache2 k = assocGet cache k) := by
  induction rows generalizing cache users with
  | nil =>
    exact ⟨users, cache, by simp [cacheUsers], fun x => by simp [lastIdLookup],
      fun x => by simp [lastIdLookup], fun k _ => rfl⟩
  | cons u rest ih =>
    obtain ⟨users2, cache2, heq, husers, hcache, hother⟩ :=
      ih (assocSet cache (getUserCacheKey u.id) (CacheValue.userVal u))
        (assocSet users u.id u)
    refine ⟨users2, cache2, ?_, fun x => ?_, fun x => ?_, fun k hk => ?_⟩
    · rw [cacheUsers, if_neg (by simp [hm])]
      exact heq
    · rw [husers x]
      cases h2 : lastIdLookup rest x with
      | some z => simp [lastIdLookup, h2]
      | none =>
        simp only [lastIdLookup, h2]
        by_cases h3 : u.id = x
        · subst h3
          simp [assocGet_assocSet_self]
        · simp [h3, assocGet_assocSet_ne users u.id x u h3]
    · rw [hcache x]
      cases h2 : lastIdLookup rest x with
      | some z => simp [lastIdLookup, h2]
      | none =>
        simp only [lastIdLookup, h2]
        by_cases h3 : u.id = x
        · subst h3
          simp [assocGet_assocSet_self]
        · have hne : getUserCacheKey u.id ≠ getUserCacheKey x := by
            simp [getUserCacheKey, h3]
          simp [h3, assocGet_assocSet_ne cache _ _ _ hne]
    · rw [hother k hk]
      exact assocGet_assocSet_ne cache _ _ _ (Ne.symm (hk u.id))

theorem cachedUser_none_iff {cache : Cache} {uids : List Nat}
    (hwf : usersWFFor cache uids = true) {x : Nat} (hx : x ∈ uids) :
    cachedUser cache x = none ↔ assocGet cache (getUserCacheKey x) = none := by
  cases hg : assocGet cache (getUserCacheKey x) with
  | none => simp [cachedUser, hg]
  | some v =>
    obtain ⟨u, rfl⟩ := usersWFFor_shape hwf hx hg
    simp [cachedUser, hg]

theorem itemsUser_eq_cachedUser {cache : Cache} {uids : List Nat} {x : Nat}
    (hx : x ∈ uids) :
    itemsUser ((uids.map getUserCacheKey).filterMap fun k =>
      (assocGet cache k).map fun v => (k, v)) x = cachedUser cache x := by
  unfold itemsUser cachedUser
  rw [items_get_of_mem (List.mem_map_of_mem getUserCacheKey hx)]

/-- Full characterization of `getUsers` under normal operation: it
returns with nil error; the result map resolves exactly the requested
ids through cache-then-store (`userLookup`); missed-but-found ids are
backfilled into the cache and nothing else in the cache or the store
changes; the store is queried once iff some requested id was not
cached. -/
theorem getUsers_spec (w : World) (uids : List Nat)
    (hwf : usersWFFor w.cache uids = true) :
    ∃ m w2,
      getUsers envOK w uids =
        ⟨.ok m, w2,
          if uids.all (fun x => (assocGet w.cache (getUserCacheKey x)).isSome) then 0 else 1⟩ ∧
      (∀ x, assocGet m x = if x ∈ uids then userLookup w x else none) ∧
      (∀ x, assocGet w2.cache (getUserCacheKey x) =
        if x ∈ uids ∧ assocGet w.cache (getUserCacheKey x) = none then
          match lastIdLookup w.store.users x with
          | some u => some (CacheValue.userVal u)
          | none => none
        else assocGet w.cache (getUserCacheKey x)) ∧
      (∀ k, (∀ x, k ≠ getUserCacheKey x) → assocGet w2.cache k = assocGet w.cache k) ∧
      w2.store = w.store := by
  have hitems : ∀ x ∈ uids,
      itemsUser ((uids.map getUserCacheKey).filterMap fun k =>
        (assocGet w.cache k).map fun v => (k, v)) x = cachedUser w.cache x :=
    fun x hx => itemsUser_eq_cachedUser hx
  set items : List (CacheKey × CacheValue) :=
    (uids.map getUserCacheKey).filterMap fun k =>
      (assocGet w.cache k).map fun v => (k, v) with hitemsdef
  have hwfitems : ∀ x ∈ uids, ∀ v, assocGet items (getUserCacheKey x) = some v →
      ∃ u, v = CacheValue.userVal u := by
    intro x hx v hv
    rw [items_get_of_mem (List.mem_map_of_mem getUserCacheKey hx)] at hv
    exact usersWFFor_shape hwf hx hv
  obtain ⟨users1, hc1, hchar1⟩ := collectHits_spec items uids [] [] hwfitems
  have hfil : (uids.filter fun x => (itemsUser items x).isNone) =
      uids.filter fun x => (assocGet w.cache (getUserCacheKey x)).isNone := by
    apply List.filter_congr
    intro x hx
    rw [hitems x hx]
    cases hg : assocGet w.cache (getUserCacheKey x) with
    | none => simp [cachedUser, hg]
    | some v =>
      obtain ⟨u, rfl⟩ := usersWFFor_shape hwf hx hg
      simp [cachedUser, hg]
  by_cases hmiss : (uids.filter fun x => (assocGet w.cache (getUserCacheKey x)).isNone) = []
  · -- every requested id is cached: no store query, no state change
    have hallhit : ∀ x ∈ uids, (assocGet w.cache (getUserCacheKey x)).isSome = true := by
      intro x hx
      have := List.filter_eq_nil_iff.mp hmiss x hx
      cases hg : assocGet w.cache (getUserCacheKey x) with
      | none => rw [hg] at this; simp at this
      | some v => simp
    have hall : uids.all (fun x => (assocGet w.cache (getUserCacheKey x)).isSome) = true :=
      List.all_eq_true.mpr hallhit
    refine ⟨users1, w, ?_, fun x => ?_, fun x => ?_, fun k _ => rfl, rfl⟩
    · rw [getUsers]
      simp only [show envOK.multiGetErr = false from rfl,
        show envOK.userSelectErr = false from rfl, Bool.false_eq_true, if_false]
      rw [hc1, hfil, hmiss, hall]
      simp
    · rw [hchar1 x]
      by_cases hx : x ∈ uids
      · have hs := hallhit x hx
        cases hg : assocGet w.cache (getUserCacheKey x) with
        | none => rw [hg] at hs; simp at hs
        | some v =>
          obtain ⟨u, rfl⟩ := usersWFFor_shape hwf hx hg
          have hcu : cachedUser w.cache x = some u := by simp [cachedUser, hg]
          simp [hx, hitems x hx, hcu, userLookup]
      · simp [hx, assocGet]
    · by_cases hx : x ∈ uids
      · have hs := hallhit x hx
        have hnn : ¬ assocGet w.cache (getUserCacheKey x) = none := by
          intro h0
          rw [h0] at hs
          simp at hs
        simp [hx, hnn]
      · simp [hx]
  · -- at least one miss: one batched store query, backfill
    have hne : ¬ (uids.filter fun x => (itemsUser items x).isNone) = [] := by
      rw [hfil]; exact hmiss
    have hallfalse : uids.all (fun x => (assocGet w.cache (getUserCacheKey x)).isSome) = false := by
      rcases List.exists_mem_of_ne_nil _ hmiss with ⟨x, hxmem⟩
      have hx := List.mem_filter.mp hxmem
      apply Bool.eq_false_iff.mpr
      intro hall
      have := List.all_eq_true.mp hall x hx.1
      cases hg : assocGet w.cache (getUserCacheKey x) with
      | none => rw [hg] at this; simp at this
      | some v => rw [hg] at hx; simp at hx
    set missUids := uids.filter fun x => (assocGet w.cache (getUserCacheKey x)).isNone
      with hmissdef
    have hmem_miss : ∀ x, x ∈ missUids ↔
        x ∈ uids ∧ assocGet w.cache (getUserCacheKey x) = none := by
      intro x
      rw [hmissdef, List.mem_filter]
      constructor
      · rintro ⟨h1, h2⟩
        refine ⟨h1, ?_⟩
        cases hg : assocGet w.cache (getUserCacheKey x) with
        | none => rfl
        | some v => rw [hg] at h2; simp at h2
      · rintro ⟨h1, h2⟩
        exact ⟨h1, by rw [h2]; simp⟩
    obtain ⟨users2, cache2, hc2, husers2, hcache2, hother2⟩ :=
      cacheUsers_spec envOK rfl (w.store.users.filter fun u => missUids.contains u.id)
        w.cache users1
    have hrows : ∀ x, lastIdLookup (w.store.users.filter fun u => missUids.contains u.id) x =
        if missUids.contains x then lastIdLookup w.store.users x else none :=
      fun x => lastIdLookup_filter w.store.users (fun i => missUids.contains i) x
    refine ⟨users2, { w with cache := cache2 }, ?_, fun x => ?_, fun x => ?_, hother2, rfl⟩
    · rw [getUsers]
      simp only [show envOK.multiGetErr = false from rfl,
        show envOK.userSelectErr = false from rfl, Bool.false_eq_true, if_false]
      rw [hc1, hfil]
      have hie : (([] : List Nat) ++ missUids).isEmpty = false := by
        rw [List.nil_append]
        cases hm2 : missUids with
        | nil => exact absurd hm2 hmiss
        | cons a l => simp [List.isEmpty]
      rw [hallfalse]
      simp only [List.nil_append] at hie ⊢
      rw [hie]
      simp only [Bool.false_eq_true, if_false]
      rw [hc2]
    · rw [husers2 x, hrows x]
      by_cases hx : x ∈ uids
      · cases hg : assocGet w.cache (getUserCacheKey x) with
        | none =>
          have hm2 : missUids.contains x = true :=
            List.elem_iff.mpr ((hmem_miss x).mpr ⟨hx, hg⟩)
          rw [hm2]
          have hcu : cachedUser w.cache x = none := by simp [cachedUser, hg]
          simp only [if_true, userLookup, hcu, hx]
          cases hl : lastIdLookup w.store.users x with
          | some u => simp
          | none =>
            simp only []
            rw [hchar1 x]
            have hnone : (itemsUser items x).isSome = false := by
              rw [hitems x hx, hcu]; rfl
            simp [hnone, assocGet]
        | some v =>
          obtain ⟨u, rfl⟩ := usersWFFor_shape hwf hx hg
          have hcu : cachedUser w.cache x = some u := by simp [cachedUser, hg]
          have hm2 : missUids.contains x = false := by
            apply Bool.eq_false_iff.mpr
            intro hc
            have := (hmem_miss x).mp (List.elem_iff.mp hc)
            rw [hg] at this
            simp at this
          rw [hm2]
          simp only [Bool.false_eq_true, if_false]
          rw [hchar1 x]
          have hsome : (itemsUser items x).isSome = true := by
            rw [hitems x hx, hcu]; rfl
          simp [hx, hsome, hitems x hx, hcu, userLookup]
      · have hm2 : missUids.contains x = false := by
          apply Bool.eq_false_iff.mpr
          intro hc
          exact hx ((hmem_miss x).mp (List.elem_iff.mp hc)).1
        rw [hm2]
        simp only [Bool.false_eq_true, if_false]
        rw [hchar1 x]
        simp [hx, assocGet]
    · rw [hcache2 x, hrows x]
      by_cases hcond : x ∈ uids ∧ assocGet w.cache (getUserCacheKey x) = none
      · have hm2 : missUids.contains x = true :=
          List.elem_iff.mpr ((hmem_miss x).mpr hcond)
        rw [hm2]
        simp only [if_true, if_pos hcond]
        cases hl : lastIdLookup w.store.users x with
        | some u => simp
        | none => simp [hcond.2]
      · have hm2 : missUids.contains x = false := by
          apply Bool.eq_false_iff.mpr
          intro hc
          exact hcond ((hmem_miss x).mp (List.elem_iff.mp hc))
        rw [hm2]
        simp [hcond]

/-! ## Sorting lemmas -/

theorem mem_insertSorted {α : Type} (le : α → α → Bool) (x y : α) (l : List α) :
    y ∈ insertSorted le x l ↔ y = x ∨ y ∈ l := by
  induction l with
  | nil => simp [insertSorted]
  | cons z rest ih =>
    by_cases h : le z x = true
    · simp only [insertSorted, h, if_true, List.mem_cons, ih]
      tauto
    · simp only [insertSorted, h, Bool.false_eq_true, if_false, List.mem_cons]

theorem pairwise_insertSorted {α : Type} (le : α → α → Bool)
    (htot : ∀ a b, le a b = true ∨ le b a = true)
    (htrans : ∀ a b c, le a b = true → le b c = true → le a c = true)
    (x : α) (l : List α) (hl : List.Pairwise (fun a b => le a b = true) l) :
    List.Pairwise (fun a b => le a b = true) (insertSorted le x l) := by
  induction l with
  | nil => simp [insertSorted]
  | cons z rest ih =>
    rcases List.pairwise_cons.mp hl with ⟨hz, hrest⟩
    by_cases h : le z x = true
    · simp only [insertSorted, h, if_true]
      refine List.pairwise_cons.mpr ⟨?_, ih hrest⟩
      intro y hy
      rcases (mem_insertSorted le x y rest).mp hy with rfl | hy2
      · exact h
      · exact hz y hy2
    · have hxz : le x z = true := by
        rcases htot z x with h1 | h1
        · exact absurd h1 h
        · exact h1
      simp only [insertSorted, h, Bool.false_eq_true, if_false]
      refine List.pairwise_cons.mpr ⟨?_, hl⟩
      intro y hy
      rcases List.mem_cons.mp hy with rfl | hy2
      · exact hxz
      · exact htrans x z y hxz (hz y hy2)

theorem mem_sortBy {α : Type} (le : α → α → Bool) (y : α) (l : List α) :
    y ∈ sortBy le l ↔ y ∈ l := by
  induction l with
  | nil => simp [sortBy]
  | cons z rest ih =>
    simp only [sortBy, mem_insertSorted, List.mem_cons, ih]

theorem pairwise_sortBy {α : Type} (le : α → α → Bool)
    (htot : ∀ a b, le a b = true ∨ le b a = true)
    (htrans : ∀ a b c, le a b = true → le b c = true → le a c = true)
    (l : List α) :
    List.Pairwise (fun a b => le a b = true) (sortBy le l) := by
  induction l with
  | nil => simp [sortBy]
  | cons z rest ih => exact pairwise_insertSorted le htot htrans z (sortBy le rest) ih

/-! ## One-step behaviour of the comment and post-index caches -/

theorem getComments_cache_hit (w : World) (pid : Nat) (cs : List Comment)
    (hhit : assocGet w.cache (getCommentsCacheKey pid) =
      some (CacheValue.commentsVal cs)) :
    getComments envOK w pid = ⟨GoRes.ok cs, w, 0⟩ := by
  rw [getComments]
  simp only [show envOK.cacheGetErr = false from rfl, Bool.false_eq_true, if_false, hhit]

theorem getComments_cache_miss (w : World) (pid : Nat)
    (hmiss : assocGet w.cache (getCommentsCacheKey pid) = none) :
    getComments envOK w pid =
      ⟨GoRes.ok (selectCommentsByPost w.store pid),
        { w with
          cache := assocSet w.cache (getCommentsCacheKey pid)
            (CacheValue.commentsVal (selectCommentsByPost w.store pid)) }, 1⟩ := by
  rw [getComments]
  simp only [show envOK.cacheGetErr = false from rfl,
    show envOK.commentSelectErr = false from rfl,
    show envOK.marshalErr = false from rfl, Bool.false_eq_true, if_false, hmiss]

theorem getIndexPosts_cache_hit (w : World) (posts : List Post)
    (hhit : assocGet w.cache getIndexPostsCacheKey =
      some (CacheValue.postsVal posts)) :
    getIndexPosts envOK w = ⟨GoRes.ok posts, w, 0⟩ := by
  rw [getIndexPosts]
  simp only [show envOK.cacheGetErr = false from rfl, Bool.false_eq_true, if_false, hhit]

theorem getIndexPosts_cache_miss (w : World)
    (hmiss : assocGet w.cache getIndexPostsCacheKey = none) :
    getIndexPosts envOK w =
      ⟨GoRes.ok (selectIndexPosts w.store),
        { w with
          cache := assocSet w.cache getIndexPostsCacheKey
            (CacheValue.postsVal (selectIndexPosts w.store)) }, 1⟩ := by
  rw [getIndexPosts]
  simp only [show envOK.cacheGetErr = false from rfl,
    show envOK.postSelectErr = false from rfl,
    show envOK.marshalErr = false from rfl, Bool.false_eq_true, if_false, hmiss]

/-- The in-memory comment as `appendComment` appends it to the cached
list: author snapshot and `time.Now()` from the caller, the id from
`LastInsertId`. -/
def appendedComment (pid : Nat) (u : User) (s : String) (t : Nat) (n : Nat) : Comment :=
  { id := n, postId := pid, userId := u.id, comment := s, createdAt := t, user := u }

theorem appendComment_cache_hit (w : World) (pid : Nat) (user : User)
    (comment : String) (now : Nat) (cs : List Comment)
    (hhit : assocGet w.cache (getCommentsCacheKey pid) =
      some (CacheValue.commentsVal cs)) :
    appendComment envOK w pid user comment now =
      ⟨GoRes.ok (),
        { store :=
            { w.store with
              comments := w.store.comments ++
                [insertedComment pid user comment now w.store.nextCommentId],
              nextCommentId := w.store.nextCommentId + 1 },
          cache := assocSet w.cache (getCommentsCacheKey pid)
            (CacheValue.commentsVal
              (cs ++ [appendedComment pid user comment now w.store.nextCommentId])) },
        1⟩ := by
  rw [appendComment]
  simp only [show envOK.insertErr = false from rfl,
    show envOK.cacheGetErr = false from rfl,
    show envOK.lastInsertIdErr = false from rfl,
    show envOK.marshalErr = false from rfl, Bool.false_eq_true, if_false, hhit]
  rfl

/-! ## Claim C1 -/

/-- C1 (amended): for every id set `S` (with deserializable cached
entries), `getUsers` returns with nil error a mapping whose key set is a
subset of `S` and is exactly the ids of `S` that exist in the union of
cache and store at call time; ids found nowhere are simply absent, and
no entry is fabricated for an id outside `S`.  (The original claim said
"exist in the store"; a cached id with no store row is still returned,
see the counterexample.) -/
theorem getUsers_result_key_set (w : World) (uids : List Nat)
    (hwf : usersWFFor w.cache uids = true) :
    ∃ m w2 q, getUsers envOK w uids = ⟨GoRes.ok m, w2, q⟩ ∧
      ∀ x, (assocGet m x).isSome = true ↔
        x ∈ uids ∧ ((assocGet w.cache (getUserCacheKey x)).isSome = true ∨
          x ∈ w.store.users.map User.id) := by
  obtain ⟨m, w2, heq, hm, _, _, _⟩ := getUsers_spec w uids hwf
  refine ⟨m, w2, _, heq, fun x => ?_⟩
  rw [hm x]
  by_cases hx : x ∈ uids
  · simp only [hx, if_true, true_and]
    cases hg : assocGet w.cache (getUserCacheKey x) with
    | some v =>
      obtain ⟨u, rfl⟩ := usersWFFor_shape hwf hx hg
      have hl : userLookup w x = some u := by simp [userLookup, cachedUser, hg]
      simp [hl, hg]
    | none =>
      have hl : userLookup w x = lastIdLookup w.store.users x := by
        simp [userLookup, cachedUser, hg]
      rw [hl]
      simp [lastIdLookup_isSome]
  · simp [hx]

/-- Witness world for C1: store holds users 1, 2, 3; the cache is empty;
the request is for ids 1, 2, 4. -/
def c1User (i : Nat) : User := { zeroUser with id := i, accountName := "u" }

def c1World : World :=
  { store :=
      { users := [c1User 1, c1User 2, c1User 3], posts := [],
        comments := [], nextCommentId := 1 },
    cache := [] }

theorem getUsers_result_key_set_witness :
    usersWFFor c1World.cache [1, 2, 4] = true ∧
    ∃ m w2 q, getUsers envOK c1World [1, 2, 4] = ⟨GoRes.ok m, w2, q⟩ ∧
      (assocGet m 1).isSome = true ∧ (assocGet m 4).isSome = false := by
  refine ⟨by decide, ?_⟩
  obtain ⟨m, w2, q, heq, hiff⟩ := getUsers_result_key_set c1World [1, 2, 4] (by decide)
  refine ⟨m, w2, q, heq, (hiff 1).mpr ⟨by decide, Or.inr (by decide)⟩, ?_⟩
  cases hs : (assocGet m 4).isSome with
  | false => rfl
  | true =>
    obtain ⟨-, h⟩ := (hiff 4).mp hs
    rcases h with h | h
    · exact absurd h (by decide)
    · exact absurd h (by decide)

/-- Counterexample world for C1 as originally stated: the cache holds an
entry for id 5 but the store has no users at all. -/
def c1StaleUser : User := { zeroUser with id := 5, accountName := "stale" }

def c1StaleWorld : World :=
  { store :=
      { users := [], posts := [], comments := [], nextCommentId := 1 },
    cache := [(getUserCacheKey 5, CacheValue.userVal c1StaleUser)] }

/-- C1 counterexample: with a cached entry for id 5 and an empty store,
`getUsers [5]` returns a mapping containing key 5 even though 5 does not
exist in the store at call time — the key set is not "exactly the ids in
S that exist in the store, regardless of prior cache contents". -/
theorem getUsers_stale_entry_counterexample :
    getUsers envOK c1StaleWorld [5] = ⟨GoRes.ok [(5, c1StaleUser)], c1StaleWorld, 0⟩ ∧
    c1StaleWorld.store.users = [] := by
  constructor
  · rfl
  · rfl

/-! ## Claim C2 -/

/-- Pointwise-equal predicates give equal `List.all` results. -/
theorem list_all_congr {α : Type} {l : List α} {p q : α → Bool}
    (h : ∀ a ∈ l, p a = q a) : l.all p = l.all q := by
  induction l with
  | nil => rfl
  | cons a rest ih =>
    rw [List.all_cons, List.all_cons, h a (List.mem_cons_self a rest),
      ih fun b hb => h b (List.mem_cons_of_mem a hb)]

/-- C2 (amended): calling `getUsers` twice in a row with no intervening
writes ALWAYS yields identical result mappings; the second call issues
zero store queries iff every requested id was found by the first call
(in cache or store) — an id that exists nowhere is re-queried by the
second call (one batched store query) and missed again (absent from
both results).  The zero-query consequence for fully-found requests is
stated explicitly as well. -/
theorem getUsers_twice_idempotent (w : World) (uids : List Nat)
    (hwf : usersWFFor w.cache uids = true) :
    ∃ m1 w1 q1 m2 w2,
      getUsers envOK w uids = ⟨GoRes.ok m1, w1, q1⟩ ∧
      getUsers envOK w1 uids =
        ⟨GoRes.ok m2, w2,
          if uids.all (fun x => (assocGet w.cache (getUserCacheKey x)).isSome ||
              decide (x ∈ w.store.users.map User.id)) then 0 else 1⟩ ∧
      (∀ x, assocGet m2 x = assocGet m1 x) ∧
      ((∀ x ∈ uids, (assocGet w.cache (getUserCacheKey x)).isSome = true ∨
          x ∈ w.store.users.map User.id) →
        getUsers envOK w1 uids = ⟨GoRes.ok m2, w2, 0⟩) ∧
      (∀ x ∈ uids, ¬ x ∈ w.store.users.map User.id →
        assocGet w.cache (getUserCacheKey x) = none →
        assocGet m1 x = none ∧ assocGet m2 x = none) := by
  obtain ⟨m1, w1, heq1, hm1, hcache1, -, hstore1⟩ := getUsers_spec w uids hwf
  have hwf1 : usersWFFor w1.cache uids = true := by
    apply List.all_eq_true.mpr
    intro x hx
    rw [hcache1 x]
    by_cases hcond : x ∈ uids ∧ assocGet w.cache (getUserCacheKey x) = none
    · rw [if_pos hcond]
      cases hl : lastIdLookup w.store.users x <;> simp
    · rw [if_neg hcond]
      cases hg : assocGet w.cache (getUserCacheKey x) with
      | none => simp
      | some v =>
        obtain ⟨u, rfl⟩ := usersWFFor_shape hwf hx hg
        simp
  have hhit1 : ∀ x ∈ uids, (assocGet w1.cache (getUserCacheKey x)).isSome =
      ((assocGet w.cache (getUserCacheKey x)).isSome ||
        decide (x ∈ w.store.users.map User.id)) := by
    intro x hx
    rw [hcache1 x]
    cases hg : assocGet w.cache (getUserCacheKey x) with
    | some v => simp [hx, hg]
    | none =>
      rw [if_pos ⟨hx, rfl⟩]
      cases hl : lastIdLookup w.store.users x with
      | some u =>
        have hmem : x ∈ w.store.users.map User.id :=
          (lastIdLookup_isSome _ _).mp (by rw [hl]; rfl)
        simp [hmem]
      | none =>
        have hmem : ¬ x ∈ w.store.users.map User.id := by
          intro hmem
          have h2 := (lastIdLookup_isSome _ _).mpr hmem
          rw [hl] at h2
          simp at h2
        simp [hmem]
  obtain ⟨m2, w2, heq2, hm2, -, -, -⟩ := getUsers_spec w1 uids hwf1
  rw [list_all_congr hhit1] at heq2
  have hid : ∀ x, assocGet m2 x = assocGet m1 x := by
    intro x
    rw [hm1 x, hm2 x]
    by_cases hx : x ∈ uids
    · simp only [hx, if_true]
      cases hg : assocGet w.cache (getUserCacheKey x) with
      | some v =>
        obtain ⟨u, rfl⟩ := usersWFFor_shape hwf hx hg
        have h1 : assocGet w1.cache (getUserCacheKey x) =
            some (CacheValue.userVal u) := by
          rw [hcache1 x]
          simp [hg]
        simp [userLookup, cachedUser, h1, hg]
      | none =>
        have h1 : assocGet w1.cache (getUserCacheKey x) =
            match lastIdLookup w.store.users x with
            | some u => some (CacheValue.userVal u)
            | none => none := by
          rw [hcache1 x, if_pos ⟨hx, hg⟩]
        cases hl : lastIdLookup w.store.users x with
        | some u =>
          rw [hl] at h1
          simp [userLookup, cachedUser, h1, hg, hl]
        | none =>
          rw [hl] at h1
          simp [userLookup, cachedUser, h1, hg, hl, hstore1]
    · simp [hx]
  have hallfound : (∀ x ∈ uids, (assocGet w.cache (getUserCacheKey x)).isSome = true ∨
      x ∈ w.store.users.map User.id) →
      (uids.all fun x => (assocGet w.cache (getUserCacheKey x)).isSome ||
        decide (x ∈ w.store.users.map User.id)) = true := by
    intro h
    apply List.all_eq_true.mpr
    intro x hx
    rcases h x hx with h2 | h2
    · simp [h2]
    · simp [h2]
  refine ⟨m1, w1, _, m2, w2, heq1, heq2, hid, ?_, ?_⟩
  · intro h
    rw [heq2, hallfound h]
    simp
  · intro x hx hnm hg
    have hl : lastIdLookup w.store.users x = none := by
      cases hl2 : lastIdLookup w.store.users x with
      | none => rfl
      | some u => exact absurd ((lastIdLookup_isSome _ _).mp (by rw [hl2]; rfl)) hnm
    have h1 : assocGet m1 x = none := by
      rw [hm1 x]
      simp [hx, userLookup, cachedUser, hg, hl]
    exact ⟨h1, by rw [hid x]; exact h1⟩

/-- Witness world for C2: store holds user 1, cache is empty. -/
def c2World : World :=
  { store :=
      { users := [c1User 1], posts := [], comments := [], nextCommentId := 1 },
    cache := [] }

theorem getUsers_twice_idempotent_witness :
    usersWFFor c2World.cache [1] = true ∧
    ∃ m1 w1 q1 m2 w2, getUsers envOK c2World [1] = ⟨GoRes.ok m1, w1, q1⟩ ∧
      getUsers envOK w1 [1] = ⟨GoRes.ok m2, w2, 0⟩ ∧
      ∀ x, assocGet m2 x = assocGet m1 x := by
  refine ⟨by decide, ?_⟩
  obtain ⟨m1, w1, q1, m2, w2, h1, -, hid, hzero, -⟩ :=
    getUsers_twice_idempotent c2World [1] (by decide)
  exact ⟨m1, w1, q1, m2, w2, h1,
    hzero (by intro x hx; right; simp at hx; subst hx; decide), hid⟩

/-- Counterexample world for C2 as originally stated: both store and
cache are empty, and id 4 is requested. -/
def c2EmptyWorld : World :=
  { store :=
      { users := [], posts := [], comments := [], nextCommentId := 1 },
    cache := [] }

/-- C2 counterexample: requesting the nonexistent id 4 twice, the second
call still issues one store query (the miss set is not warmed because
the store returned no row), contradicting "the second call issues zero
store queries"; id 4 is missed by both calls (both results are the
empty mapping, so the results are still identical). -/
theorem getUsers_twice_requeries_counterexample :
    (getUsers envOK c2EmptyWorld [4]).queries = 1 ∧
    (getUsers envOK (getUsers envOK c2EmptyWorld [4]).world [4]).queries = 1 ∧
    (getUsers envOK c2EmptyWorld [4]).res = GoRes.ok [] ∧
    (getUsers envOK (getUsers envOK c2EmptyWorld [4]).world [4]).res =
      GoRes.ok [] := by
  exact ⟨rfl, rfl, rfl, rfl⟩

/-! ## Claim C6 -/

/-- The environment in which the memcached multi-get call fails with a
transport error and everything else succeeds. -/
def envMultiGetErr : Env := { envOK with multiGetErr := true }

/-- C6: if the multi-get call itself returns a transport error,
`getUsers` treats the entire requested set as a miss: it returns with
nil error (no cache error surfaces), issues the one batched store query,
and resolves every requested id purely from the store (every returned
user is a store row; the prior cache contents are not consulted). -/
theorem getUsers_transport_error_full_miss (w : World) (uids : List Nat)
    (hne : uids ≠ []) :
    ∃ m w2, getUsers envMultiGetErr w uids = ⟨GoRes.ok m, w2, 1⟩ ∧
      (∀ x, assocGet m x = if x ∈ uids then lastIdLookup w.store.users x else none) ∧
      (∀ x u, assocGet m x = some u → u ∈ w.store.users) ∧
      (∀ x, (assocGet m x).isSome = true ↔ x ∈ uids ∧ x ∈ w.store.users.map User.id) ∧
      w2.store = w.store := by
  have hwfempty : ∀ x ∈ uids, ∀ v,
      assocGet ([] : List (CacheKey × CacheValue)) (getUserCacheKey x) = some v →
      ∃ u, v = CacheValue.userVal u := by
    intro x _ v hv
    simp [assocGet] at hv
  obtain ⟨users1, hc1, hchar1⟩ := collectHits_spec [] uids [] [] hwfempty
  have husers1 : ∀ x, assocGet users1 x = none := by
    intro x
    rw [hchar1 x]
    simp [itemsUser, assocGet]
  have hfil : (uids.filter fun x =>
      (itemsUser ([] : List (CacheKey × CacheValue)) x).isNone) = uids := by
    have h1 : (uids.filter fun x =>
        (itemsUser ([] : List (CacheKey × CacheValue)) x).isNone) =
        uids.filter fun _ => true := by
      apply List.filter_congr
      intro x _
      simp [itemsUser, assocGet]
    rw [h1, List.filter_true]
  obtain ⟨users2, cache2, hc2, husers2, hcache2, hother2⟩ :=
    cacheUsers_spec envMultiGetErr rfl
      (w.store.users.filter fun u => uids.contains u.id) w.cache users1
  have hrows : ∀ x, lastIdLookup (w.store.users.filter fun u => uids.contains u.id) x =
      if uids.contains x then lastIdLookup w.store.users x else none :=
    fun x => lastIdLookup_filter w.store.users (fun i => uids.contains i) x
  have hm : ∀ x, assocGet users2 x =
      if x ∈ uids then lastIdLookup w.store.users x else none := by
    intro x
    rw [husers2 x, hrows x]
    by_cases hx : x ∈ uids
    · have hc : uids.contains x = true := List.elem_iff.mpr hx
      rw [hc]
      simp only [if_true, hx]
      cases hl : lastIdLookup w.store.users x with
      | some u => simp
      | none => simp [husers1 x]
    · have hc : uids.contains x = false := by
        apply Bool.eq_false_iff.mpr
        intro h
        exact hx (List.elem_iff.mp h)
      rw [hc]
      simp [hx, husers1 x]
  refine ⟨users2, { w with cache := cache2 }, ?_, hm, ?_, ?_, rfl⟩
  · rw [getUsers]
    simp only [show envMultiGetErr.multiGetErr = true from rfl,
      show envMultiGetErr.userSelectErr = false from rfl, Bool.false_eq_true,
      if_true, if_false]
    rw [hc1, hfil]
    have hie : (([] : List Nat) ++ uids).isEmpty = false := by
      rw [List.nil_append]
      cases h2 : uids with
      | nil => exact absurd h2 hne
      | cons a l => simp [List.isEmpty]
    simp only [List.nil_append] at hie ⊢
    rw [hie]
    simp only [Bool.false_eq_true, if_false]
    rw [hc2]
  · intro x u hu
    rw [hm x] at hu
    by_cases hx : x ∈ uids
    · rw [if_pos hx] at hu
      exact (lastIdLookup_mem w.store.users x u hu).1
    · rw [if_neg hx] at hu
      cases hu
  · intro x
    rw [hm x]
    by_cases hx : x ∈ uids
    · simp [hx, lastIdLookup_isSome]
    · simp [hx]

/-- Witness world for C6: the cache holds a stale snapshot for id 1
(account "cached"), the store holds the authoritative row (account
"store"). -/
def c6CachedUser : User := { zeroUser with id := 1, accountName := "cached" }

def c6StoreUser : User := { zeroUser with id := 1, accountName := "store" }

def c6World : World :=
  { store :=
      { users := [c6StoreUser], posts := [], comments := [], nextCommentId := 1 },
    cache := [(getUserCacheKey 1, CacheValue.userVal c6CachedUser)] }

theorem getUsers_transport_error_full_miss_witness :
    ([1] : List Nat) ≠ [] ∧
    ∃ m w2, getUsers envMultiGetErr c6World [1] = ⟨GoRes.ok m, w2, 1⟩ ∧
      assocGet m 1 = some c6StoreUser := by
  refine ⟨by decide, ?_⟩
  obtain ⟨m, w2, heq, hm, -, -, -⟩ :=
    getUsers_transport_error_full_miss c6World [1] (by decide)
  refine ⟨m, w2, heq, ?_⟩
  rw [hm 1]
  decide

/-! ## Claim C8 -/

/-- C8: `banUserOnCache` never touches the store and issues no store
query; when no cached snapshot exists for the id it is a complete no-op
(it does not fall back to the store); when a snapshot exists it rewrites
the entry with the deletion flag set, every other field of the snapshot
(id, account name, password hash, authority, creation time) unchanged. -/
theorem banUserOnCache_spec (w : World) (userID : Nat) :
    (banUserOnCache envOK w userID).world.store = w.store ∧
    (banUserOnCache envOK w userID).queries = 0 ∧
    (assocGet w.cache (getUserCacheKey userID) = none →
      banUserOnCache envOK w userID = ⟨GoRes.ok (), w, 0⟩) ∧
    (∀ u, assocGet w.cache (getUserCacheKey userID) = some (CacheValue.userVal u) →
      banUserOnCache envOK w userID =
        ⟨GoRes.ok (),
          { w with
            cache := assocSet w.cache (getUserCacheKey userID)
              (CacheValue.userVal { u with delFlg := 1 }) }, 0⟩) ∧
    (∀ u : User,
      ({ u with delFlg := 1 } : User).id = u.id ∧
      ({ u with delFlg := 1 } : User).accountName = u.accountName ∧
      ({ u with delFlg := 1 } : User).passhash = u.passhash ∧
      ({ u with delFlg := 1 } : User).authority = u.authority ∧
      ({ u with delFlg := 1 } : User).createdAt = u.createdAt ∧
      ({ u with delFlg := 1 } : User).delFlg = 1) := by
  refine ⟨?_, ?_, ?_, ?_, fun u => ⟨rfl, rfl, rfl, rfl, rfl, rfl⟩⟩
  · rw [banUserOnCache]
    simp only [show envOK.cacheGetErr = false from rfl,
      show envOK.marshalErr = false from rfl, Bool.false_eq_true, if_false]
    cases hg : assocGet w.cache (getUserCacheKey userID) with
    | none => rfl
    | some v => cases v <;> rfl
  · rw [banUserOnCache]
    simp only [show envOK.cacheGetErr = false from rfl,
      show envOK.marshalErr = false from rfl, Bool.false_eq_true, if_false]
    cases hg : assocGet w.cache (getUserCacheKey userID) with
    | none => rfl
    | some v => cases v <;> rfl
  · intro hg
    rw [banUserOnCache]
    simp only [show envOK.cacheGetErr = false from rfl, Bool.false_eq_true,
      if_false, hg]
  · intro u hg
    rw [banUserOnCache]
    simp only [show envOK.cacheGetErr = false from rfl,
      show envOK.marshalErr = false from rfl, Bool.false_eq_true, if_false, hg]

/-- Witness world for C8: the cache holds a snapshot for id 6 (with
every field populated); id 7 has no snapshot. -/
def c8User : User :=
  { id := 6, accountName := "bob", passhash := "h", authority := 1,
    delFlg := 0, createdAt := 44 }

def c8World : World :=
  { store :=
      { users := [], posts := [], comments := [], nextCommentId := 1 },
    cache := [(getUserCacheKey 6, CacheValue.userVal c8User)] }

theorem banUserOnCache_spec_witness :
    banUserOnCache envOK c8World 6 =
      ⟨GoRes.ok (),
        { c8World with
          cache := assocSet c8World.cache (getUserCacheKey 6)
            (CacheValue.userVal { c8User with delFlg := 1 }) }, 0⟩ ∧
    banUserOnCache envOK c8World 7 = ⟨GoRes.ok (), c8World, 0⟩ :=
  ⟨(banUserOnCache_spec c8World 6).2.2.2.1 c8User rfl,
   (banUserOnCache_spec c8World 7).2.2.1 rfl⟩

/-! ## Claim C9 -/

/-- C9: after deleting the single post-index key (`invalidate`),
`getIndexPosts` misses, queries the store exactly once for the
`postsPerPage` most recent posts authored by non-deleted users in
descending creation-time order, writes the list back under the single
key and returns it; a second `getIndexPosts` is then served entirely
from the repopulated cache (zero store queries) with an identical
result. -/
theorem getIndexPosts_invalidate_refill (w : World) :
    (getIndexPosts envOK (invalidateIndexPosts w)).res =
      GoRes.ok (selectIndexPosts w.store) ∧
    (getIndexPosts envOK (invalidateIndexPosts w)).queries = 1 ∧
    assocGet (getIndexPosts envOK (invalidateIndexPosts w)).world.cache
        getIndexPostsCacheKey =
      some (CacheValue.postsVal (selectIndexPosts w.store)) ∧
    getIndexPosts envOK (getIndexPosts envOK (invalidateIndexPosts w)).world =
      ⟨GoRes.ok (selectIndexPosts w.store),
        (getIndexPosts envOK (invalidateIndexPosts w)).world, 0⟩ ∧
    List.Pairwise (fun a b => b.createdAt ≤ a.createdAt) (selectIndexPosts w.store) ∧
    (selectIndexPosts w.store).length ≤ postsPerPage ∧
    (∀ p ∈ selectIndexPosts w.store,
      ∃ u, u ∈ w.store.users ∧ u.id = p.userId ∧ u.delFlg = 0) := by
  have hmiss : assocGet (invalidateIndexPosts w).cache getIndexPostsCacheKey = none :=
    assocGet_assocDelete_self w.cache getIndexPostsCacheKey
  have hstep := getIndexPosts_cache_miss (invalidateIndexPosts w) hmiss
  have hstore : (invalidateIndexPosts w).store = w.store := rfl
  rw [hstore] at hstep
  have hsorted : List.Pairwise (fun a b : Post => b.createdAt ≤ a.createdAt)
      (selectIndexPosts w.store) := by
    have hp := pairwise_sortBy postGe
      (fun a b => by
        rcases Nat.le_total b.createdAt a.createdAt with h | h
        · exact Or.inl (by simpa [postGe] using h)
        · exact Or.inr (by simpa [postGe] using h))
      (fun a b c h1 h2 => by
        simp only [postGe, decide_eq_true_eq] at h1 h2 ⊢
        exact Nat.le_trans h2 h1)
      ((w.store.posts.filter fun p =>
        (w.store.users.filter fun u => u.delFlg = 0).any fun u => u.id = p.userId).map
          postRowView)
    have hsub : List.Sublist (selectIndexPosts w.store)
        (sortBy postGe ((w.store.posts.filter fun p =>
          (w.store.users.filter fun u => u.delFlg = 0).any fun u => u.id = p.userId).map
            postRowView)) := by
      rw [selectIndexPosts]
      exact List.take_sublist postsPerPage _
    have hp2 := List.Pairwise.sublist hsub hp
    refine hp2.imp ?_
    intro a b h
    simpa [postGe] using h
  refine ⟨by rw [hstep], by rw [hstep], ?_, ?_, hsorted, ?_, ?_⟩
  · rw [hstep]
    exact assocGet_assocSet_self _ _ _
  · rw [hstep]
    exact getIndexPosts_cache_hit _ (selectIndexPosts w.store)
      (assocGet_assocSet_self _ _ _)
  · rw [selectIndexPosts]
    exact List.length_take_le postsPerPage _
  · intro p hp
    rw [selectIndexPosts] at hp
    have hp2 := List.mem_of_mem_take hp
    rw [mem_sortBy] at hp2
    obtain ⟨q, hq, rfl⟩ := List.mem_map.mp hp2
    obtain ⟨hqmem, hqpred⟩ := List.mem_filter.mp hq
    obtain ⟨u, humem, huid⟩ := List.any_eq_true.mp hqpred
    obtain ⟨humem2, hdel⟩ := List.mem_filter.mp humem
    refine ⟨u, humem2, ?_, of_decide_eq_true hdel⟩
    simpa [postRowView] using of_decide_eq_true huid

/-- Witness world for C9: one post (id 3, author 1, not deleted) in the
store; the index key is cached and about to be invalidated. -/
def c9User : User := { zeroUser with id := 1 }

def c9Post : Post := { zeroPost with id := 3, userId := 1, createdAt := 30 }

def c9World : World :=
  { store :=
      { users := [c9User], posts := [c9Post], comments := [], nextCommentId := 1 },
    cache := [(getIndexPostsCacheKey, CacheValue.postsVal [])] }

theorem getIndexPosts_invalidate_refill_witness :
    (getIndexPosts envOK (invalidateIndexPosts c9World)).res =
      GoRes.ok (selectIndexPosts c9World.store) ∧
    (getIndexPosts envOK
      (getIndexPosts envOK (invalidateIndexPosts c9World)).world).queries = 0 ∧
    ∃ u, u ∈ c9World.store.users ∧ u.id = (postRowView c9Post).userId ∧
      u.delFlg = 0 := by
  have h := getIndexPosts_invalidate_refill c9World
  refine ⟨h.1, ?_, ?_⟩
  · rw [h.2.2.2.1]
  · exact h.2.2.2.2.2.2 (postRowView c9Post) (by decide)

/-! ## Claim C4 -/

/-- C4: when the comment-cache entry for the post is absent,
`appendComment` returns without error, persists the new comment to the
store (auto-increment id, one store round-trip — the insert; no
store-backed rebuild query), and performs no cache write at all: the
cache is exactly as before, so the entry for that post stays absent. -/
theorem appendComment_cache_absent (w : World) (pid : Nat) (user : User)
    (comment : String) (now : Nat)
    (habs : assocGet w.cache (getCommentsCacheKey pid) = none) :
    appendComment envOK w pid user comment now =
      ⟨GoRes.ok (),
        { store :=
            { w.store with
              comments := w.store.comments ++
                [insertedComment pid user comment now w.store.nextCommentId],
              nextCommentId := w.store.nextCommentId + 1 },
          cache := w.cache },
        1⟩ ∧
    assocGet (appendComment envOK w pid user comment now).world.cache
      (getCommentsCacheKey pid) = none := by
  have heq : appendComment envOK w pid user comment now =
      ⟨GoRes.ok (),
        { store :=
            { w.store with
              comments := w.store.comments ++
                [insertedComment pid user comment now w.store.nextCommentId],
              nextCommentId := w.store.nextCommentId + 1 },
          cache := w.cache },
        1⟩ := by
    rw [appendComment]
    simp only [show envOK.insertErr = false from rfl,
      show envOK.cacheGetErr = false from rfl, Bool.false_eq_true, if_false, habs]
  refine ⟨heq, ?_⟩
  rw [heq]
  exact habs

/-- Witness world for C4: store and cache both empty (in particular no
`comments:1` entry, as right after `deleteAll`). -/
def c4World : World :=
  { store :=
      { users := [], posts := [], comments := [], nextCommentId := 7 },
    cache := [] }

def c4User : User := { zeroUser with id := 3 }

theorem appendComment_cache_absent_witness :
    assocGet c4World.cache (getCommentsCacheKey 1) = none ∧
    appendComment envOK c4World 1 c4User "hello" 50 =
      ⟨GoRes.ok (),
        { store :=
            { c4World.store with
              comments := c4World.store.comments ++
                [insertedComment 1 c4User "hello" 50 7],
              nextCommentId := 8 },
          cache := c4World.cache },
        1⟩ :=
  ⟨rfl, (appendComment_cache_absent c4World 1 c4User "hello" 50 rfl).1⟩

/-! ## Claim C10 -/

/-- C10: `appendComment` is not atomic on error.  The store insert runs
before any cache interaction, so whenever `appendComment` returns a
non-nil error although the insert itself succeeded (cached-payload
deserialization failure, `LastInsertId` failure, or re-serialization
failure), the comment row is already durably in the store with the next
auto-increment id — an error result never implies the store is
unchanged. -/
theorem appendComment_error_row_already_inserted (env : Env) (w : World)
    (pid : Nat) (user : User) (comment : String) (now : Nat)
    (hins : env.insertErr = false)
    (herr : (appendComment env w pid user comment now).res = GoRes.err) :
    (appendComment env w pid user comment now).world.store.comments =
      w.store.comments ++
        [insertedComment pid user comment now w.store.nextCommentId] ∧
    (appendComment env w pid user comment now).world.store.nextCommentId =
      w.store.nextCommentId + 1 := by
  rw [appendComment] at herr ⊢
  simp only [hins, Bool.false_eq_true, if_false] at herr ⊢
  set og := (if env.cacheGetErr = true then none
      else assocGet w.cache (getCommentsCacheKey pid)) with hog
  clear_value og
  cases og with
  | none => simp at herr
  | some v =>
    cases v with
    | commentsVal cs =>
      by_cases hl : env.lastInsertIdErr = true
      · simp [hl]
      · by_cases hmar : env.marshalErr = true
        · simp [hl, hmar]
        · simp [hl, hmar] at herr
    | userVal u => simp
    | postsVal l => simp
    | corrupt => simp

/-- Witness environment and world for C10: the re-serialization step
fails; the comment cache holds an (empty) list for post 1. -/
def c10Env : Env := { envOK with marshalErr := true }

def c10World : World :=
  { store :=
      { users := [], posts := [], comments := [], nextCommentId := 4 },
    cache := [(getCommentsCacheKey 1, CacheValue.commentsVal [])] }

theorem appendComment_error_row_already_inserted_witness :
    c10Env.insertErr = false ∧
    (appendComment c10Env c10World 1 c4User "x" 9).res = GoRes.err ∧
    (appendComment c10Env c10World 1 c4User "x" 9).world.store.comments =
      c10World.store.comments ++ [insertedComment 1 c4User "x" 9 4] := by
  refine ⟨rfl, rfl, ?_⟩
  exact (appendComment_error_row_already_inserted c10Env c10World 1 c4User "x" 9
    rfl rfl).1

/-! ## Claim C7 -/

/-- C7: the comment lists `getComments` builds and maintains are ordered
by ascending creation time, and `appendComment` preserves that order by
placing the new comment at the end of the cached list.  Concretely:
(a) on a cache miss `getComments` returns (and caches) the store's
comments for the post sorted ascending by creation time; (b) starting
from a post whose cached list `cs` is ascending and bounded by `t1`,
appending three comments at nondecreasing times `t1 ≤ t2 ≤ t3` succeeds,
leaves the cached list `cs ++ [a1, a2, a3]` in exactly that order with
distinct ascending store-generated ids `n < n+1 < n+2`, and a following
`getComments` returns that list unchanged, still ascending. -/
theorem getComments_append_ordering (w : World) (pid : Nat) (u1 u2 u3 : User)
    (s1 s2 s3 : String) (t1 t2 t3 : Nat) (cs : List Comment)
    (hhit : assocGet w.cache (getCommentsCacheKey pid) =
      some (CacheValue.commentsVal cs))
    (hsort : List.Pairwise (fun a b => a.createdAt ≤ b.createdAt) cs)
    (hb : ∀ c ∈ cs, c.createdAt ≤ t1) (h12 : t1 ≤ t2) (h23 : t2 ≤ t3) :
    (∀ (w4 : World) (pid2 : Nat),
      assocGet w4.cache (getCommentsCacheKey pid2) = none →
      getComments envOK w4 pid2 =
        ⟨GoRes.ok (selectCommentsByPost w4.store pid2),
          { w4 with
            cache := assocSet w4.cache (getCommentsCacheKey pid2)
              (CacheValue.commentsVal (selectCommentsByPost w4.store pid2)) }, 1⟩ ∧
      List.Pairwise (fun a b : Comment => a.createdAt ≤ b.createdAt)
        (selectCommentsByPost w4.store pid2)) ∧
    (let n := w.store.nextCommentId
     let r1 := appendComment envOK w pid u1 s1 t1
     let r2 := appendComment envOK r1.world pid u2 s2 t2
     let r3 := appendComment envOK r2.world pid u3 s3 t3
     let final := cs ++ [appendedComment pid u1 s1 t1 n,
       appendedComment pid u2 s2 t2 (n + 1), appendedComment pid u3 s3 t3 (n + 2)]
     r1.res = GoRes.ok () ∧ r2.res = GoRes.ok () ∧ r3.res = GoRes.ok () ∧
     assocGet r3.world.cache (getCommentsCacheKey pid) =
       some (CacheValue.commentsVal final) ∧
     getComments envOK r3.world pid = ⟨GoRes.ok final, r3.world, 0⟩ ∧
     List.Pairwise (fun a b => a.createdAt ≤ b.createdAt) final ∧
     n < n + 1 ∧ n + 1 < n + 2) := by
  constructor
  · intro w4 pid2 hmiss
    refine ⟨getComments_cache_miss w4 pid2 hmiss, ?_⟩
    have hp := pairwise_sortBy commentLe
      (fun a b => by
        rcases Nat.le_total a.createdAt b.createdAt with h | h
        · exact Or.inl (by simpa [commentLe] using h)
        · exact Or.inr (by simpa [commentLe] using h))
      (fun a b c h1 h2 => by
        simp only [commentLe, decide_eq_true_eq] at h1 h2 ⊢
        exact Nat.le_trans h1 h2)
      (w4.store.comments.filter fun c => c.postId = pid2)
    rw [selectCommentsByPost]
    exact hp.imp fun h => by simpa [commentLe] using h
  · dsimp only
    have h1 := appendComment_cache_hit w pid u1 s1 t1 cs hhit
    have hhit1 : assocGet (appendComment envOK w pid u1 s1 t1).world.cache
        (getCommentsCacheKey pid) = some (CacheValue.commentsVal
          (cs ++ [appendedComment pid u1 s1 t1 w.store.nextCommentId])) := by
      rw [h1]
      exact assocGet_assocSet_self _ _ _
    have h2 := appendComment_cache_hit (appendComment envOK w pid u1 s1 t1).world
      pid u2 s2 t2 _ hhit1
    have hn1 : (appendComment envOK w pid u1 s1 t1).world.store.nextCommentId =
        w.store.nextCommentId + 1 := by
      rw [h1]
    have hhit2 : assocGet (appendComment envOK
        (appendComment envOK w pid u1 s1 t1).world pid u2 s2 t2).world.cache
        (getCommentsCacheKey pid) = some (CacheValue.commentsVal
          ((cs ++ [appendedComment pid u1 s1 t1 w.store.nextCommentId]) ++
            [appendedComment pid u2 s2 t2 (w.store.nextCommentId + 1)])) := by
      rw [h2, hn1]
      exact assocGet_assocSet_self _ _ _
    have h3 := appendComment_cache_hit (appendComment envOK
      (appendComment envOK w pid u1 s1 t1).world pid u2 s2 t2).world
      pid u3 s3 t3 _ hhit2
    have hn2 : (appendComment envOK (appendComment envOK w pid u1 s1 t1).world
        pid u2 s2 t2).world.store.nextCommentId = w.store.nextCommentId + 2 := by
      rw [h2, hn1]
    have hhit3 : assocGet (appendComment envOK (appendComment envOK
        (appendComment envOK w pid u1 s1 t1).world pid u2 s2 t2).world
        pid u3 s3 t3).world.cache (getCommentsCacheKey pid) =
        some (CacheValue.commentsVal
          (((cs ++ [appendedComment pid u1 s1 t1 w.store.nextCommentId]) ++
            [appendedComment pid u2 s2 t2 (w.store.nextCommentId + 1)]) ++
            [appendedComment pid u3 s3 t3 (w.store.nextCommentId + 2)])) := by
      rw [h3, hn2]
      exact assocGet_assocSet_self _ _ _
    have happ : (((cs ++ [appendedComment pid u1 s1 t1 w.store.nextCommentId]) ++
        [appendedComment pid u2 s2 t2 (w.store.nextCommentId + 1)]) ++
        [appendedComment pid u3 s3 t3 (w.store.nextCommentId + 2)]) =
        cs ++ [appendedComment pid u1 s1 t1 w.store.nextCommentId,
          appendedComment pid u2 s2 t2 (w.store.nextCommentId + 1),
          appendedComment pid u3 s3 t3 (w.store.nextCommentId + 2)] := by
      simp [List.append_assoc]
    refine ⟨by rw [h1], by rw [h2], by rw [h3], ?_, ?_, ?_, Nat.lt_succ_self _,
      Nat.lt_succ_self _⟩
    · rw [hhit3, happ]
    · have hfinal : assocGet (appendComment envOK (appendComment envOK
          (appendComment envOK w pid u1 s1 t1).world pid u2 s2 t2).world
          pid u3 s3 t3).world.cache (getCommentsCacheKey pid) =
          some (CacheValue.commentsVal
            (cs ++ [appendedComment pid u1 s1 t1 w.store.nextCommentId,
              appendedComment pid u2 s2 t2 (w.store.nextCommentId + 1),
              appendedComment pid u3 s3 t3 (w.store.nextCommentId + 2)])) := by
        rw [hhit3, happ]
      exact getComments_cache_hit _ _ _ hfinal
    · rw [List.pairwise_append]
      refine ⟨hsort, ?_, ?_⟩
      · refine List.pairwise_cons.mpr ⟨?_, List.pairwise_cons.mpr ⟨?_,
          List.pairwise_cons.mpr ⟨?_, List.Pairwise.nil⟩⟩⟩
        · intro b hbmem
          rcases List.mem_cons.mp hbmem with rfl | hbmem
          · exact h12
          rcases List.mem_cons.mp hbmem with rfl | hbmem
          · exact Nat.le_trans h12 h23
          · cases hbmem
        · intro b hbmem
          rcases List.mem_cons.mp hbmem with rfl | hbmem
          · exact h23
          · cases hbmem
        · intro b hbmem
          cases hbmem
      · intro a ha b hbmem
        have hat1 : a.createdAt ≤ t1 := hb a ha
        rcases List.mem_cons.mp hbmem with rfl | hbmem
        · exact hat1
        rcases List.mem_cons.mp hbmem with rfl | hbmem
        · exact Nat.le_trans hat1 h12
        rcases List.mem_cons.mp hbmem with rfl | hbmem
        · exact Nat.le_trans hat1 (Nat.le_trans h12 h23)
        · cases hbmem

/-- Witness world for C7: post 1 has an empty cached comment list; the
store's next auto-increment comment id is 10. -/
def c7User : User := { zeroUser with id := 2 }

def c7World : World :=
  { store :=
      { users := [], posts := [], comments := [], nextCommentId := 10 },
    cache := [(getCommentsCacheKey 1, CacheValue.commentsVal [])] }

theorem getComments_append_ordering_witness :
    assocGet (appendComment envOK (appendComment envOK (appendComment envOK
        c7World 1 c7User "a" 5).world 1 c7User "b" 6).world 1
        c7User "c" 7).world.cache (getCommentsCacheKey 1) =
      some (CacheValue.commentsVal [appendedComment 1 c7User "a" 5 10,
        appendedComment 1 c7User "b" 6 11, appendedComment 1 c7User "c" 7 12]) := by
  have h := getComments_append_ordering c7World 1 c7User c7User c7User "a" "b" "c"
    5 6 7 [] rfl List.Pairwise.nil (fun c hc => absurd hc (List.not_mem_nil c))
    (by decide) (by decide)
  exact h.2.2.2.2.1

/-! ## Claim C5 -/

/-- World for C5: the user cache holds a snapshot for id 1; the store
holds a row for id 2; no comment or index entries are cached. -/
def c5CachedUser : User := { zeroUser with id := 1, accountName := "hit" }

def c5StoreUser : User := { zeroUser with id := 2 }

def c5World : World :=
  { store :=
      { users := [c5StoreUser], posts := [], comments := [], nextCommentId := 1 },
    cache := [(getUserCacheKey 1, CacheValue.userVal c5CachedUser)] }

/-- C5: a store query failure is propagated as a non-nil error by
`getComments` (fallback query) and `getIndexPosts` (fallback query) —
but NOT by `getUsers`: its batched miss query assigns the `db.Select`
error to a variable that is never checked, so with the cache holding
id 1 and the store holding id 2, a failing store query still yields
`(map with only id 1, nil error)` — a partial result with the store
failure swallowed, where the claim required the error to propagate. -/
theorem store_failure_propagation :
    (getComments { envOK with commentSelectErr := true } c5World 7).res =
      GoRes.err ∧
    (getIndexPosts { envOK with postSelectErr := true } c5World).res =
      GoRes.err ∧
    getUsers { envOK with userSelectErr := true } c5World [1, 2] =
      ⟨GoRes.ok [(1, c5CachedUser)], c5World, 1⟩ := by
  exact ⟨rfl, rfl, rfl⟩

/-! ## Claim C3 -/

/-- One iteration of `makePosts` over a single surviving candidate,
with the comment fetch and the user batch-get abstracted by their
results. -/
theorem makePosts_single (w : World) (p : Post) (csrf : String)
    (allComments : Bool) (cs : List Comment) (m : UserMap) (w2 : World)
    (qv : Nat) (au : User)
    (hcs : getComments envOK w p.id = ⟨GoRes.ok cs, w, 0⟩)
    (hus : getUsers envOK w (p.userId ::
      (if (!allComments && decide (cs.length > 3)) = true then cs.take 3
       else cs).map Comment.userId) = ⟨GoRes.ok m, w2, qv⟩)
    (hau : assocGet m p.userId = some au) (hdel : au.delFlg = 0) :
    makePosts envOK w [p] csrf allComments =
      ⟨GoRes.ok [{ p with
          commentCount := cs.length,
          comments := (if (!allComments && decide (cs.length > 3)) = true
              then cs.take 3 else cs).map
            (fun c => { c with user := (assocGet m c.userId).getD zeroUser }),
          user := au, csrfToken := csrf }], w2, qv⟩ := by
  rw [makePosts, makePostsLoop, hcs]
  dsimp only
  rw [hus]
  dsimp only
  rw [hau]
  dsimp only [Option.getD]
  rw [if_pos hdel]
  simp only [List.nil_append, List.length_cons, List.length_nil, Nat.zero_add]
  rw [if_neg (by decide : ¬ ((1 : Nat) ≥ postsPerPage))]
  rw [makePostsLoop]

/-- C3 (amended): for a candidate post whose cached comment list `cs`
(ordered by ascending creation time) has more than 3 entries and whose
author is resolvable and not deleted, `makePosts` with
`includeAllComments = false` attaches exactly the FIRST 3 comments of
the list — the 3 oldest, not the 3 most recent — while `commentCount`
is the full length; with `includeAllComments = true` it attaches all of
them.  (The original claim said "the 3 most recent"; the code slices
`comments[:3]` off the ascending list, see the counterexample.) -/
theorem makePosts_truncates_to_first_three (w : World) (p : Post)
    (cs : List Comment) (csrf : String) (au : User)
    (hhit : assocGet w.cache (getCommentsCacheKey p.id) =
      some (CacheValue.commentsVal cs))
    (hlen : 3 < cs.length)
    (hwf3 : usersWFFor w.cache (p.userId :: (cs.take 3).map Comment.userId) = true)
    (hwfall : usersWFFor w.cache (p.userId :: cs.map Comment.userId) = true)
    (hau : userLookup w p.userId = some au) (hdel : au.delFlg = 0) :
    (∃ p2 w2 q, makePosts envOK w [p] csrf false = ⟨GoRes.ok [p2], w2, q⟩ ∧
      p2.comments.map Comment.id = (cs.take 3).map Comment.id ∧
      p2.commentCount = cs.length) ∧
    (∃ p3 w3 q3, makePosts envOK w [p] csrf true = ⟨GoRes.ok [p3], w3, q3⟩ ∧
      p3.comments.map Comment.id = cs.map Comment.id ∧
      p3.commentCount = cs.length) := by
  have hcs := getComments_cache_hit w p.id cs hhit
  constructor
  · have hcond : (!false && decide (cs.length > 3)) = true := by simp [hlen]
    have hifeq : (if (!false && decide (cs.length > 3)) = true
        then cs.take 3 else cs) = cs.take 3 := if_pos hcond
    obtain ⟨m, w2, heq, hm, -, -, -⟩ := getUsers_spec w
      (p.userId :: (cs.take 3).map Comment.userId) hwf3
    have hau2 : assocGet m p.userId = some au := by
      rw [hm p.userId]
      simp [hau]
    have hsingle := makePosts_single w p csrf false cs m w2 _ au hcs
      (by rw [hifeq]; exact heq) hau2 hdel
    refine ⟨_, w2, _, hsingle, ?_, rfl⟩
    show ((if (!false && decide (cs.length > 3)) = true
        then cs.take 3 else cs).map
      (fun c => { c with user := (assocGet m c.userId).getD zeroUser })).map
        Comment.id = (cs.take 3).map Comment.id
    rw [hifeq, List.map_map]
    rfl
  · have hcond : (!true && decide (cs.length > 3)) = false := rfl
    have hifeq : (if (!true && decide (cs.length > 3)) = true
        then cs.take 3 else cs) = cs := by
      rw [hcond]
      simp
    obtain ⟨m, w2, heq, hm, -, -, -⟩ := getUsers_spec w
      (p.userId :: cs.map Comment.userId) hwfall
    have hau2 : assocGet m p.userId = some au := by
      rw [hm p.userId]
      simp [hau]
    have hsingle := makePosts_single w p csrf true cs m w2 _ au hcs
      (by rw [hifeq]; exact heq) hau2 hdel
    refine ⟨_, w2, _, hsingle, ?_, rfl⟩
    show ((if (!true && decide (cs.length > 3)) = true
        then cs.take 3 else cs).map
      (fun c => { c with user := (assocGet m c.userId).getD zeroUser })).map
        Comment.id = cs.map Comment.id
    rw [hifeq, List.map_map]
    rfl

/-- Counterexample/witness world for C3: post 9 (author 1, not deleted)
has 4 cached comments with creation times 1, 2, 3, 4 in ascending
order. -/
def c3Comment (i t : Nat) : Comment :=
  { id := i, postId := 9, userId := 1, comment := "c", createdAt := t,
    user := zeroUser }

def c3User : User := { zeroUser with id := 1 }

def c3Comments : List Comment :=
  [c3Comment 1 1, c3Comment 2 2, c3Comment 3 3, c3Comment 4 4]

def c3World : World :=
  { store :=
      { users := [c3User], posts := [], comments := [], nextCommentId := 5 },
    cache := [(getCommentsCacheKey 9, CacheValue.commentsVal c3Comments)] }

def c3Post : Post := { zeroPost with id := 9, userId := 1 }

/-- The creation times of the comments `makePosts` attaches to post 9
of `c3World` with `includeAllComments = false`. -/
def c3AttachedTimes : List Nat :=
  match (makePosts envOK c3World [c3Post] "" false).res with
  | GoRes.ok (p2 :: _) => p2.comments.map Comment.createdAt
  | _ => []

/-- C3 counterexample: the cached list contains a comment with creation
time 4 — strictly more recent than every attached one — yet the
attached comments are the ones with creation times 1, 2, 3 (the 3
oldest), not the 3 most recent (2, 3, 4). -/
theorem makePosts_attaches_oldest_counterexample :
    c3AttachedTimes = [1, 2, 3] ∧
    assocGet c3World.cache (getCommentsCacheKey 9) =
      some (CacheValue.commentsVal c3Comments) ∧
    c3Comment 4 4 ∈ c3Comments ∧ (c3Comment 4 4).createdAt = 4 ∧
    ¬ 4 ∈ c3AttachedTimes ∧ c3AttachedTimes ≠ [2, 3, 4] := by
  refine ⟨rfl, rfl, by decide, rfl, by decide, by decide⟩

theorem makePosts_truncates_to_first_three_witness :
    (3 < c3Comments.length ∧ usersWFFor c3World.cache
      (c3Post.userId :: (c3Comments.take 3).map Comment.userId) = true) ∧
    ∃ p2 w2 q, makePosts envOK c3World [c3Post] "" false =
        ⟨GoRes.ok [p2], w2, q⟩ ∧
      p2.comments.map Comment.id = [1, 2, 3] ∧ p2.commentCount = 4 := by
  refine ⟨⟨by decide, by decide⟩, ?_⟩
  obtain ⟨⟨p2, w2, q, heq, hids, hcount⟩, -⟩ :=
    makePosts_truncates_to_first_three c3World c3Post c3Comments "" c3User
      rfl (by decide) (by decide) (by decide) rfl rfl
  refine ⟨p2, w2, q, heq, ?_, ?_⟩
  · rw [hids]
    rfl
  · rw [hcount]
    rfl

end Isu
